import Mathlib

/-!
Shallow embedding of the tiff-core TIFF structural decoder.

Bytes are modelled as natural numbers (values below 256 in any real input);
byte buffers are lists of naturals.  Machine integers are naturals with
explicit reductions modulo 2^w where the source converts between widths.
Fallible Rust functions returning `Result<T, TiffError>` are modelled as
`Except TiffError` values; the stateful `TiffReader` cursor is modelled by
explicit state passing of a `Reader` record, with every operation returning
the error-or-value together with the resulting reader state (mirroring
`&mut self` in Rust, where the cursor survives a failed call).
Rust `f32`/`f64` values produced by `from_bits` are modelled by their bit
patterns; `String` values by their UTF-8 byte sequences.
-/

namespace TiffCore

/-- Byte order of the TIFF file (`Endian` in `header.rs`). -/
inductive Endian where
  | little
  | big
deriving DecidableEq, Repr

/-- `Endian::read_u16`: convert two bytes to a 16-bit value under this order
(`u16::from_le_bytes` / `u16::from_be_bytes`). -/
def Endian.readU16 (e : Endian) (b0 b1 : Nat) : Nat :=
  match e with
  | .little => b0 + 256 * b1
  | .big => b1 + 256 * b0

/-- `Endian::read_u32`: convert four bytes to a 32-bit value under this order. -/
def Endian.readU32 (e : Endian) (b0 b1 b2 b3 : Nat) : Nat :=
  match e with
  | .little => b0 + 256 * b1 + 65536 * b2 + 16777216 * b3
  | .big => b3 + 256 * b2 + 65536 * b1 + 16777216 * b0

/-- `Endian::read_u64`: convert eight bytes to a 64-bit value under this order. -/
def Endian.readU64 (e : Endian) (b0 b1 b2 b3 b4 b5 b6 b7 : Nat) : Nat :=
  match e with
  | .little =>
      b0 + 256 * b1 + 65536 * b2 + 16777216 * b3 + 4294967296 * b4 +
        1099511627776 * b5 + 281474976710656 * b6 + 72057594037927936 * b7
  | .big =>
      b7 + 256 * b6 + 65536 * b5 + 16777216 * b4 + 4294967296 * b3 +
        1099511627776 * b2 + 281474976710656 * b1 + 72057594037927936 * b0

/-- `u32::to_le_bytes` on a 32-bit value. -/
def u32ToLeBytes (v : Nat) : List Nat :=
  [v % 256, v / 256 % 256, v / 65536 % 256, v / 16777216 % 256]

/-- `u32::to_be_bytes` on a 32-bit value. -/
def u32ToBeBytes (v : Nat) : List Nat :=
  (u32ToLeBytes v).reverse

/-- The error taxonomy of `error.rs` (`TiffError`). -/
inductive TiffError where
  | insufficientData (operation : String) (needed available : Nat)
  | invalidMagic (found : Nat)
  | invalidByteOrder (found : List Nat)
  | outOfBounds (index max : Nat)
  | invalidFieldType (found : Nat)
  | unsupportedFeature (feature : String)
  | malformedFile (reason : String)
  | invalidTag (tag : Nat) (reason : String)
  | invalidString (context : String)
deriving DecidableEq, Repr

/-- TIFF file header (`TiffHeader` in `header.rs`). -/
structure TiffHeader where
  endian : Endian
  magic : Nat
  ifdOffset : Nat
deriving DecidableEq, Repr

/-- `Endian::from_bytes`: parse the order marker from the first two bytes. -/
def Endian.fromBytes (bytes : List Nat) : Except TiffError Endian :=
  if bytes.length < 2 then
    .error (.insufficientData "reading byte order" 2 bytes.length)
  else
    let b0 := bytes.getD 0 0
    let b1 := bytes.getD 1 0
    if b0 = 73 ∧ b1 = 73 then .ok .little
    else if b0 = 77 ∧ b1 = 77 then .ok .big
    else .error (.invalidByteOrder [b0, b1])

/-- `TiffHeader::parse`: parse the 8-byte TIFF header. -/
def TiffHeader.parse (data : List Nat) : Except TiffError TiffHeader :=
  if data.length < 8 then
    .error (.insufficientData "reading TIFF header" 8 data.length)
  else
    match Endian.fromBytes (data.take 2) with
    | .error e => .error e
    | .ok endian =>
      let magic := endian.readU16 (data.getD 2 0) (data.getD 3 0)
      if magic ≠ 42 then .error (.invalidMagic magic)
      else
        let ifdOffset :=
          endian.readU32 (data.getD 4 0) (data.getD 5 0) (data.getD 6 0) (data.getD 7 0)
        .ok ⟨endian, magic, ifdOffset⟩

/-! ## Byte source (`InMemorySource` in `reader.rs`)

The source is a plain byte buffer; every read validates bounds first and
returns `OutOfBounds` carrying the attempted end index and the length. -/

/-- `InMemorySource::read_bytes_at`. -/
def readBytesAt (data : List Nat) (offset count : Nat) : Except TiffError (List Nat) :=
  if offset + count > data.length then
    .error (.outOfBounds (offset + count) data.length)
  else
    .ok ((data.drop offset).take count)

/-- `InMemorySource::read_u8_at`. -/
def readU8At (data : List Nat) (offset : Nat) : Except TiffError Nat :=
  if offset + 1 > data.length then
    .error (.outOfBounds (offset + 1) data.length)
  else
    .ok (data.getD offset 0)

/-- `InMemorySource::read_u16_at`. -/
def readU16At (data : List Nat) (offset : Nat) (e : Endian) : Except TiffError Nat :=
  if offset + 2 > data.length then
    .error (.outOfBounds (offset + 2) data.length)
  else
    .ok (e.readU16 (data.getD offset 0) (data.getD (offset + 1) 0))

/-- `InMemorySource::read_u32_at`. -/
def readU32At (data : List Nat) (offset : Nat) (e : Endian) : Except TiffError Nat :=
  if offset + 4 > data.length then
    .error (.outOfBounds (offset + 4) data.length)
  else
    .ok (e.readU32 (data.getD offset 0) (data.getD (offset + 1) 0)
      (data.getD (offset + 2) 0) (data.getD (offset + 3) 0))

/-! ## Stateful reader (`TiffReader` in `reader.rs`)

Each stateful operation takes the reader and returns the `Result` together
with the reader state afterwards, because the Rust methods take `&mut self`
and the cursor persists across a failed call. -/

/-- `TiffReader`: a data source plus a cursor. -/
structure Reader where
  data : List Nat
  pos : Nat
deriving DecidableEq, Repr

/-- `TiffReader::new`. -/
def Reader.new (data : List Nat) : Reader := ⟨data, 0⟩

/-- `TiffReader::seek`. -/
def seek (r : Reader) (p : Nat) : Except TiffError Unit × Reader :=
  if p > r.data.length then
    (.error (.outOfBounds p r.data.length), r)
  else
    (.ok (), { r with pos := p })

/-- `TiffReader::skip`. -/
def skip (r : Reader) (count : Nat) : Except TiffError Unit × Reader :=
  seek r (r.pos + count)

/-- `TiffReader::read_u8`. -/
def readU8 (r : Reader) : Except TiffError Nat × Reader :=
  match readU8At r.data r.pos with
  | .error e => (.error e, r)
  | .ok v => (.ok v, { r with pos := r.pos + 1 })

/-- `TiffReader::read_u16`. -/
def readU16 (r : Reader) (e : Endian) : Except TiffError Nat × Reader :=
  match readU16At r.data r.pos e with
  | .error err => (.error err, r)
  | .ok v => (.ok v, { r with pos := r.pos + 2 })

/-- `TiffReader::read_u32`. -/
def readU32 (r : Reader) (e : Endian) : Except TiffError Nat × Reader :=
  match readU32At r.data r.pos e with
  | .error err => (.error err, r)
  | .ok v => (.ok v, { r with pos := r.pos + 4 })

/-- `TiffReader::read_bytes`. -/
def readBytes (r : Reader) (count : Nat) : Except TiffError (List Nat) × Reader :=
  match readBytesAt r.data r.pos count with
  | .error e => (.error e, r)
  | .ok v => (.ok v, { r with pos := r.pos + count })

/-- `TiffReader::read_header`: read 8 bytes (advancing the cursor), then
parse them as a TIFF header. -/
def readHeader (r : Reader) : Except TiffError TiffHeader × Reader :=
  match readBytes r 8 with
  | (.error e, r') => (.error e, r')
  | (.ok bytes, r') =>
    match TiffHeader.parse bytes with
    | .error e => (.error e, r')
    | .ok h => (.ok h, r')

/-! ## IFD data model and tag value decoding (`ifd.rs`) -/

/-- An IFD entry (`IfdEntry`), always 12 bytes on the wire. -/
structure IfdEntry where
  tag : Nat
  fieldType : Nat
  count : Nat
  valueOffset : Nat
deriving DecidableEq, Repr

/-- The twelve TIFF field types (`FieldType`). -/
inductive FieldType where
  | byte
  | ascii
  | short
  | long
  | rational
  | sbyte
  | undefined
  | sshort
  | slong
  | srational
  | float
  | double
deriving DecidableEq, Repr

/-- `FieldType::from_u16`. -/
def FieldType.fromU16 (value : Nat) : Except TiffError FieldType :=
  match value with
  | 1 => .ok .byte
  | 2 => .ok .ascii
  | 3 => .ok .short
  | 4 => .ok .long
  | 5 => .ok .rational
  | 6 => .ok .sbyte
  | 7 => .ok .undefined
  | 8 => .ok .sshort
  | 9 => .ok .slong
  | 10 => .ok .srational
  | 11 => .ok .float
  | 12 => .ok .double
  | v => .error (.invalidFieldType v)

/-- `FieldType::byte_size`. -/
def FieldType.byteSize : FieldType → Nat
  | .byte | .sbyte | .ascii | .undefined => 1
  | .short | .sshort => 2
  | .long | .slong | .float => 4
  | .rational | .srational | .double => 8

/-- `b as i8` in Rust: reinterpret an 8-bit value as a signed integer. -/
def toI8 (b : Nat) : Int :=
  if b % 256 < 128 then (b % 256 : Nat) else (b % 256 : Nat) - 256

/-- `v as i16` in Rust applied to a u16. -/
def toI16 (v : Nat) : Int :=
  if v % 65536 < 32768 then (v % 65536 : Nat) else (v % 65536 : Nat) - 65536

/-- `v as i32` in Rust applied to a u32. -/
def toI32 (v : Nat) : Int :=
  if v % 4294967296 < 2147483648 then (v % 4294967296 : Nat)
  else (v % 4294967296 : Nat) - 4294967296

/-- Decoded tag values (`TagValue`).  Rust `String` is modelled by its
UTF-8 byte sequence; `f32`/`f64` values are modelled by the bit patterns
the source obtains from `f32::from_bits` / `f64::from_bits`. -/
inductive TagValue where
  | bytes (v : List Nat)
  | ascii (s : List Nat)
  | shorts (v : List Nat)
  | longs (v : List Nat)
  | rationals (v : List (Nat × Nat))
  | sbytes (v : List Int)
  | undefined (v : List Nat)
  | sshorts (v : List Int)
  | slongs (v : List Int)
  | srationals (v : List (Int × Int))
  | floats (v : List Nat)
  | doubles (v : List Nat)
deriving DecidableEq, Repr

/-- Number of decoded elements held by a `TagValue`: rationals count as
pairs, floats and doubles as scalars, strings as their bytes. -/
def tagValueElemCount : TagValue → Nat
  | .bytes v => v.length
  | .ascii s => s.length
  | .shorts v => v.length
  | .longs v => v.length
  | .rationals v => v.length
  | .sbytes v => v.length
  | .undefined v => v.length
  | .sshorts v => v.length
  | .slongs v => v.length
  | .srationals v => v.length
  | .floats v => v.length
  | .doubles v => v.length

/-- `TagValue::as_rational_f64`.  The Rust code divides the numerator by the
denominator in `f64`; both operands are 32-bit integers and hence exactly
representable, so the quotient is the correctly rounded value of the exact
ratio.  We model the exact ratio as a rational number. -/
def TagValue.asRationalF64 : TagValue → Option ℚ
  | .rationals v =>
    match v with
    | [] => none
    | (num, den) :: _ => if den ≠ 0 then some ((num : ℚ) / (den : ℚ)) else none
  | .srationals v =>
    match v with
    | [] => none
    | (num, den) :: _ => if den ≠ 0 then some ((num : ℚ) / (den : ℚ)) else none
  | _ => none

/-- Is `b` a UTF-8 continuation byte (`0x80..=0xBF`)? -/
def isUtf8Cont (b : Nat) : Bool :=
  128 ≤ b ∧ b ≤ 191

/-- UTF-8 validity of a byte sequence, as checked by Rust's
`String::from_utf8` (rejecting overlong encodings, surrogates, and values
above U+10FFFF). -/
def validUtf8 : List Nat → Bool
  | [] => true
  | b :: rest =>
    if b ≤ 127 then validUtf8 rest
    else if 194 ≤ b ∧ b ≤ 223 then
      match rest with
      | b1 :: rest' => isUtf8Cont b1 && validUtf8 rest'
      | [] => false
    else if b = 224 then
      match rest with
      | b1 :: b2 :: rest' =>
        (decide (160 ≤ b1 ∧ b1 ≤ 191)) && isUtf8Cont b2 && validUtf8 rest'
      | _ => false
    else if (225 ≤ b ∧ b ≤ 236) ∨ b = 238 ∨ b = 239 then
      match rest with
      | b1 :: b2 :: rest' => isUtf8Cont b1 && isUtf8Cont b2 && validUtf8 rest'
      | _ => false
    else if b = 237 then
      match rest with
      | b1 :: b2 :: rest' =>
        (decide (128 ≤ b1 ∧ b1 ≤ 159)) && isUtf8Cont b2 && validUtf8 rest'
      | _ => false
    else if b = 240 then
      match rest with
      | b1 :: b2 :: b3 :: rest' =>
        (decide (144 ≤ b1 ∧ b1 ≤ 191)) && isUtf8Cont b2 && isUtf8Cont b3 && validUtf8 rest'
      | _ => false
    else if 241 ≤ b ∧ b ≤ 243 then
      match rest with
      | b1 :: b2 :: b3 :: rest' =>
        isUtf8Cont b1 && isUtf8Cont b2 && isUtf8Cont b3 && validUtf8 rest'
      | _ => false
    else if b = 244 then
      match rest with
      | b1 :: b2 :: b3 :: rest' =>
        (decide (128 ≤ b1 ∧ b1 ≤ 143)) && isUtf8Cont b2 && isUtf8Cont b3 && validUtf8 rest'
      | _ => false
    else false

/-- The Ascii branch's null handling: `if let Some(&0) = last { pop }` —
remove exactly one trailing null byte when one is present. -/
def stripTrailingNull (l : List Nat) : List Nat :=
  match l.getLast? with
  | some 0 => l.dropLast
  | _ => l

/-- One element-collecting loop of `parse_value_from_bytes`:
`for i in 0..count { if i*sz + sz > data.len() { break } push(elem i) }`.
`i` is the current index, the second argument the remaining iterations. -/
def parseElems (dataLen sz : Nat) (elem : Nat → α) : Nat → Nat → List α
  | _, 0 => []
  | i, n + 1 =>
    if i * sz + sz > dataLen then []
    else elem i :: parseElems dataLen sz elem (i + 1) n

/-- `TiffReader::parse_value_from_bytes`: decode a raw payload buffer
according to the field type. -/
def parseValueFromBytes (data : List Nat) (fieldType : FieldType) (count : Nat)
    (e : Endian) : Except TiffError TagValue :=
  match fieldType with
  | .byte => .ok (.bytes data)
  | .ascii =>
    let stringData := stripTrailingNull data
    if validUtf8 stringData then .ok (.ascii stringData)
    else .error (.invalidString "ASCII tag")
  | .short =>
    .ok (.shorts (parseElems data.length 2
      (fun i => e.readU16 (data.getD (i * 2) 0) (data.getD (i * 2 + 1) 0)) 0 count))
  | .long =>
    .ok (.longs (parseElems data.length 4
      (fun i => e.readU32 (data.getD (i * 4) 0) (data.getD (i * 4 + 1) 0)
        (data.getD (i * 4 + 2) 0) (data.getD (i * 4 + 3) 0)) 0 count))
  | .rational =>
    .ok (.rationals (parseElems data.length 8
      (fun i =>
        (e.readU32 (data.getD (i * 8) 0) (data.getD (i * 8 + 1) 0)
          (data.getD (i * 8 + 2) 0) (data.getD (i * 8 + 3) 0),
         e.readU32 (data.getD (i * 8 + 4) 0) (data.getD (i * 8 + 5) 0)
          (data.getD (i * 8 + 6) 0) (data.getD (i * 8 + 7) 0))) 0 count))
  | .sbyte => .ok (.sbytes (data.map toI8))
  | .undefined => .ok (.undefined data)
  | .sshort =>
    .ok (.sshorts (parseElems data.length 2
      (fun i => toI16 (e.readU16 (data.getD (i * 2) 0) (data.getD (i * 2 + 1) 0))) 0 count))
  | .slong =>
    .ok (.slongs (parseElems data.length 4
      (fun i => toI32 (e.readU32 (data.getD (i * 4) 0) (data.getD (i * 4 + 1) 0)
        (data.getD (i * 4 + 2) 0) (data.getD (i * 4 + 3) 0))) 0 count))
  | .srational =>
    .ok (.srationals (parseElems data.length 8
      (fun i =>
        (toI32 (e.readU32 (data.getD (i * 8) 0) (data.getD (i * 8 + 1) 0)
          (data.getD (i * 8 + 2) 0) (data.getD (i * 8 + 3) 0)),
         toI32 (e.readU32 (data.getD (i * 8 + 4) 0) (data.getD (i * 8 + 5) 0)
          (data.getD (i * 8 + 6) 0) (data.getD (i * 8 + 7) 0)))) 0 count))
  | .float =>
    .ok (.floats (parseElems data.length 4
      (fun i => e.readU32 (data.getD (i * 4) 0) (data.getD (i * 4 + 1) 0)
        (data.getD (i * 4 + 2) 0) (data.getD (i * 4 + 3) 0)) 0 count))
  | .double =>
    .ok (.doubles (parseElems data.length 8
      (fun i => e.readU64 (data.getD (i * 8) 0) (data.getD (i * 8 + 1) 0)
        (data.getD (i * 8 + 2) 0) (data.getD (i * 8 + 3) 0)
        (data.getD (i * 8 + 4) 0) (data.getD (i * 8 + 5) 0)
        (data.getD (i * 8 + 6) 0) (data.getD (i * 8 + 7) 0)) 0 count))

/-- `TiffReader::parse_tag_value`: resolve the inline-vs-offset storage
policy for one entry, then decode the payload bytes.  The reader's data
source is the byte buffer `data` (the tag decoder only performs stateless
reads). -/
def parseTagValue (data : List Nat) (entry : IfdEntry) (e : Endian) :
    Except TiffError TagValue :=
  match FieldType.fromU16 entry.fieldType with
  | .error err => .error err
  | .ok fieldType =>
    let totalBytes := fieldType.byteSize * entry.count
    if totalBytes ≤ 4 then
      let bytes :=
        match e with
        | .little => u32ToLeBytes entry.valueOffset
        | .big => u32ToBeBytes entry.valueOffset
      parseValueFromBytes (bytes.take (min totalBytes 4)) fieldType entry.count e
    else
      match readBytesAt data entry.valueOffset totalBytes with
      | .error err => .error err
      | .ok payload => parseValueFromBytes payload fieldType entry.count e

/-! ## IFD reading and the directory chain walk (`ifd.rs`, `lib.rs`) -/

/-- One parsed directory (`ImageFileDirectory`). -/
structure ImageFileDirectory where
  entries : List IfdEntry
  nextIfdOffset : Nat
deriving DecidableEq, Repr

/-- `TiffReader::read_ifd_entry`: read one 12-byte entry at the cursor. -/
def readIfdEntry (r : Reader) (e : Endian) : Except TiffError IfdEntry × Reader :=
  match readU16 r e with
  | (.error err, r1) => (.error err, r1)
  | (.ok tag, r1) =>
    match readU16 r1 e with
    | (.error err, r2) => (.error err, r2)
    | (.ok fieldType, r2) =>
      match readU32 r2 e with
      | (.error err, r3) => (.error err, r3)
      | (.ok count, r3) =>
        match readU32 r3 e with
        | (.error err, r4) => (.error err, r4)
        | (.ok valueOffset, r4) => (.ok ⟨tag, fieldType, count, valueOffset⟩, r4)

/-- The entry loop of `read_ifd`: read `n` consecutive 12-byte entries. -/
def readIfdEntries (e : Endian) : Nat → Reader → Except TiffError (List IfdEntry) × Reader
  | 0, r => (.ok [], r)
  | n + 1, r =>
    match readIfdEntry r e with
    | (.error err, r') => (.error err, r')
    | (.ok entry, r') =>
      match readIfdEntries e n r' with
      | (.error err, r'') => (.error err, r'')
      | (.ok rest, r'') => (.ok (entry :: rest), r'')

/-- `TiffReader::read_ifd`: seek to `offset`, read the 2-byte entry count,
the entries, then the 4-byte next-directory offset. -/
def readIfd (r : Reader) (offset : Nat) (e : Endian) :
    Except TiffError ImageFileDirectory × Reader :=
  match seek r offset with
  | (.error err, r1) => (.error err, r1)
  | (.ok _, r1) =>
    match readU16 r1 e with
    | (.error err, r2) => (.error err, r2)
    | (.ok numEntries, r2) =>
      match readIfdEntries e numEntries r2 with
      | (.error err, r3) => (.error err, r3)
      | (.ok entries, r3) =>
        match readU32 r3 e with
        | (.error err, r4) => (.error err, r4)
        | (.ok nextIfdOffset, r4) => (.ok ⟨entries, nextIfdOffset⟩, r4)

/-- The complete parsed file (`TiffFile`). -/
structure TiffFile where
  header : TiffHeader
  ifds : List ImageFileDirectory
  reader : Reader
deriving DecidableEq, Repr

/-- The `while ifd_offset != 0` loop of `TiffFile::from_reader`, made total
with a fuel parameter.  `none` means the fuel ran out before the loop
finished: the Rust loop has executed more than `fuel` iterations, since the
source imposes no iteration bound of its own. -/
def walkIfds (e : Endian) : Nat → Nat → Reader →
    Option (Except TiffError (List ImageFileDirectory × Reader))
  | 0, offset, r =>
    if offset = 0 then some (.ok ([], r)) else none
  | fuel + 1, offset, r =>
    if offset = 0 then some (.ok ([], r))
    else
      match readIfd r offset e with
      | (.error err, _) => some (.error err)
      | (.ok ifd, r') =>
        match walkIfds e fuel ifd.nextIfdOffset r' with
        | none => none
        | some (.error err) => some (.error err)
        | some (.ok (rest, r'')) => some (.ok (ifd :: rest, r''))

/-- `TiffFile::from_reader`, fuel-indexed: read the header, then walk the
directory chain starting at the header's first-directory offset. -/
def fromReaderFuel (fuel : Nat) (r : Reader) : Option (Except TiffError TiffFile) :=
  match readHeader r with
  | (.error e, _) => some (.error e)
  | (.ok header, r1) =>
    match walkIfds header.endian fuel header.ifdOffset r1 with
    | none => none
    | some (.error e) => some (.error e)
    | some (.ok (ifds, r2)) => some (.ok ⟨header, ifds, r2⟩)

/-- `TiffFile::from_bytes`: wrap the bytes in an in-memory source with a
fresh cursor and run `from_reader`. -/
def fromBytesFuel (fuel : Nat) (data : List Nat) : Option (Except TiffError TiffFile) :=
  fromReaderFuel fuel (Reader.new data)

/-- `ImageFileDirectory::find_entry`: first entry with the given tag. -/
def findEntry (ifd : ImageFileDirectory) (tag : Nat) : Option IfdEntry :=
  ifd.entries.find? (fun entry => entry.tag = tag)

/-- Construction of a valid 8-byte header from a chosen byte order and
first-directory offset: the order marker, the magic constant 42 and the
offset serialized in that order (the inverse direction of the header
round-trip property). -/
def mkHeaderBytes (e : Endian) (offset : Nat) : List Nat :=
  match e with
  | .little => 73 :: 73 :: 42 :: 0 :: u32ToLeBytes offset
  | .big => 77 :: 77 :: 0 :: 42 :: u32ToBeBytes offset

/-- Does the error indicate truncated input — the two kinds the spec
allows for a truncated file (`InsufficientData` or `OutOfBounds`)? -/
def isTruncationError : TiffError → Bool
  | .outOfBounds _ _ => true
  | .insufficientData _ _ _ => true
  | _ => false

end TiffCore

namespace TiffCore

/-! ## Theorems -/

/-- C5: for every 8-byte input whose first two bytes are a recognized order
marker and whose bytes 2-3 decode to 42 under that order, `TiffHeader::parse`
succeeds and returns exactly the encoded byte order and the first-directory
offset decoded from bytes 4-7 under that order; constructing the 8 bytes
from a chosen order and offset and parsing them round-trips. -/
theorem c5_header_parse_roundtrip (data : List Nat) (e : Endian) (offset : Nat)
    (hlen : 8 ≤ data.length)
    (hmark : Endian.fromBytes (data.take 2) = .ok e)
    (hmagic : e.readU16 (data.getD 2 0) (data.getD 3 0) = 42) :
    TiffHeader.parse data =
      .ok ⟨e, 42, e.readU32 (data.getD 4 0) (data.getD 5 0) (data.getD 6 0) (data.getD 7 0)⟩ ∧
    (offset < 4294967296 →
      TiffHeader.parse (mkHeaderBytes e offset) = .ok ⟨e, 42, offset⟩) := by
  constructor
  · rw [TiffHeader.parse, if_neg (by omega), hmark]
    simp only [List.getD_eq_getElem?_getD] at hmagic
    simp [hmagic]
  · intro hoff
    cases e with
    | little =>
      simp only [mkHeaderBytes, TiffHeader.parse, u32ToLeBytes, Endian.fromBytes,
        Endian.readU16, Endian.readU32]
      norm_num [List.getD]
      omega
    | big =>
      simp only [mkHeaderBytes, TiffHeader.parse, u32ToBeBytes, u32ToLeBytes, Endian.fromBytes,
        Endian.readU16, Endian.readU32]
      norm_num [List.getD]
      omega

/-- Witness for C5 at the canonical little-endian header bytes. -/
theorem c5_witness :
    TiffHeader.parse [73, 73, 42, 0, 8, 0, 0, 0] = .ok ⟨.little, 42, 8⟩ ∧
    TiffHeader.parse (mkHeaderBytes .big 8) = .ok ⟨.big, 42, 8⟩ := by
  have h := c5_header_parse_roundtrip [73, 73, 42, 0, 8, 0, 0, 0] .little 8
    (by decide) rfl (by decide)
  have h2 := c5_header_parse_roundtrip [77, 77, 0, 42, 0, 0, 0, 8] .big 8
    (by decide) rfl (by decide)
  exact ⟨by simpa using h.1, h2.2 (by decide)⟩

/-- C6: for every input of at least 8 bytes whose first two bytes are a
valid order marker but whose bytes 2-3, decoded under that just-determined
order, are not 42, `TiffHeader::parse` fails with `InvalidMagic` carrying
the order-correct decoded value; the magic check is performed only after
the order is known. -/
theorem c6_invalid_magic (data : List Nat) (e : Endian)
    (hlen : 8 ≤ data.length)
    (hmark : Endian.fromBytes (data.take 2) = .ok e)
    (hmagic : e.readU16 (data.getD 2 0) (data.getD 3 0) ≠ 42) :
    TiffHeader.parse data =
      .error (.invalidMagic (e.readU16 (data.getD 2 0) (data.getD 3 0))) := by
  rw [TiffHeader.parse, if_neg (by omega), hmark]
  simp only [List.getD_eq_getElem?_getD] at hmagic
  simp [hmagic]

/-- Witness for C6: big-endian marker with magic bytes 2A 00, which decode
to 10752 under big-endian order, not 42. -/
theorem c6_witness :
    TiffHeader.parse [77, 77, 42, 0, 0, 0, 0, 8] = .error (.invalidMagic 10752) := by
  have h := c6_invalid_magic [77, 77, 42, 0, 0, 0, 0, 8] .big
    (by decide) rfl (by decide)
  simpa using h

/-- C9: the rational query returns the numeric ratio
numerator/denominator when the first pair's denominator is nonzero
(with (22,7) about 3.142857), and no value when it is zero, for both the
unsigned and the signed rational variants. -/
theorem c9_rational_query (num den : Nat) (rest : List (Nat × Nat))
    (num' den' : Int) (rest' : List (Int × Int)) :
    (den ≠ 0 →
      (TagValue.rationals ((num, den) :: rest)).asRationalF64 =
        some ((num : ℚ) / (den : ℚ))) ∧
    (TagValue.rationals ((num, 0) :: rest)).asRationalF64 = none ∧
    (den' ≠ 0 →
      (TagValue.srationals ((num', den') :: rest')).asRationalF64 =
        some ((num' : ℚ) / (den' : ℚ))) ∧
    (TagValue.srationals ((num', 0) :: rest')).asRationalF64 = none ∧
    (TagValue.rationals [(22, 7)]).asRationalF64 = some ((22 : ℚ) / 7) ∧
    |(22 : ℚ) / 7 - 3142857 / 1000000| < 1 / 1000 := by
  refine ⟨fun h => by simp [TagValue.asRationalF64, h],
    by simp [TagValue.asRationalF64],
    fun h => by simp [TagValue.asRationalF64, h],
    by simp [TagValue.asRationalF64],
    by norm_num [TagValue.asRationalF64],
    by rw [abs_lt]; constructor <;> norm_num⟩

/-- Witness for C9 at the pair (22,7). -/
theorem c9_witness :
    (TagValue.rationals [(22, 7)]).asRationalF64 = some ((22 : ℚ) / 7) :=
  (c9_rational_query 22 7 [] 1 1 []).1 (by norm_num)

/-- C7: Ascii decoding strips exactly one trailing null byte if present,
uses all bytes when no trailing null is present, succeeds exactly when the
null-stripped bytes are valid text encoding, and the only possible failure
is `InvalidString`. -/
theorem c7_ascii_decode (data : List Nat) (count : Nat) (e : Endian) :
    (data.getLast? = some 0 →
      parseValueFromBytes data .ascii count e =
        (if validUtf8 data.dropLast then .ok (.ascii data.dropLast)
         else .error (.invalidString "ASCII tag"))) ∧
    (data.getLast? ≠ some 0 →
      parseValueFromBytes data .ascii count e =
        (if validUtf8 data then .ok (.ascii data)
         else .error (.invalidString "ASCII tag"))) ∧
    (∀ err, parseValueFromBytes data .ascii count e = .error err →
      err = .invalidString "ASCII tag") := by
  have hstrip : stripTrailingNull data =
      (if data.getLast? = some 0 then data.dropLast else data) := by
    rw [stripTrailingNull]
    rcases h : data.getLast? with _ | b
    · simp [h]
    · rcases b with _ | b <;> simp [h]
  refine ⟨fun h => ?_, fun h => ?_, fun err herr => ?_⟩
  · rw [parseValueFromBytes, hstrip, if_pos h]
  · rw [parseValueFromBytes, hstrip, if_neg h]
  · rw [parseValueFromBytes] at herr
    by_cases hv : validUtf8 (stripTrailingNull data) <;> simp [hv] at herr
    exact herr.symm

/-- Witness for C7: bytes without a trailing null decode using all bytes;
a non-UTF-8 payload fails with `InvalidString`. -/
theorem c7_witness :
    parseValueFromBytes [65, 66] .ascii 2 .little = .ok (.ascii [65, 66]) ∧
    parseValueFromBytes [255, 0] .ascii 2 .little =
      .error (.invalidString "ASCII tag") := by
  have h1 := (c7_ascii_decode [65, 66] 2 .little).2.1 (by decide)
  have h2 := (c7_ascii_decode [255, 0] 2 .little).1 (by decide)
  exact ⟨by simpa using h1, by simpa using h2⟩

/-- C2: decoding uses the inline rule exactly when
`byte_size * value_count ≤ 4`: the payload is obtained by re-serializing
the 4-byte value slot in the file's byte order and taking the leading
`total_bytes` bytes; otherwise the slot is a byte offset and `total_bytes`
bytes are read from the source there.  A Long entry with count 1 decodes
inline to the slot value itself; with count 2 it dereferences the slot. -/
theorem c2_inline_offset_policy (data : List Nat) (entry : IfdEntry) (e : Endian)
    (ft : FieldType) (hft : FieldType.fromU16 entry.fieldType = .ok ft) :
    (ft.byteSize * entry.count ≤ 4 →
      parseTagValue data entry e =
        parseValueFromBytes
          ((match e with
            | .little => u32ToLeBytes entry.valueOffset
            | .big => u32ToBeBytes entry.valueOffset).take (ft.byteSize * entry.count))
          ft entry.count e) ∧
    (4 < ft.byteSize * entry.count →
      parseTagValue data entry e =
        match readBytesAt data entry.valueOffset (ft.byteSize * entry.count) with
        | .error err => .error err
        | .ok payload => parseValueFromBytes payload ft entry.count e) ∧
    (ft = .long → entry.count = 1 → entry.valueOffset < 4294967296 →
      parseTagValue data entry e = .ok (.longs [entry.valueOffset])) ∧
    (ft = .long → entry.count = 2 →
      parseTagValue data entry e =
        match readBytesAt data entry.valueOffset 8 with
        | .error err => .error err
        | .ok payload => parseValueFromBytes payload .long 2 e) := by
  refine ⟨fun h => ?_, fun h => ?_, fun hl hc hv => ?_, fun hl hc => ?_⟩
  · rw [parseTagValue.eq_def, hft]
    simp only [if_pos h]
    have : min (ft.byteSize * entry.count) 4 = ft.byteSize * entry.count := by omega
    rw [this]
  · rw [parseTagValue.eq_def, hft]
    simp only [if_neg (by omega : ¬ ft.byteSize * entry.count ≤ 4)]
  · subst hl
    rw [parseTagValue.eq_def, hft]
    have hsz : FieldType.byteSize .long * entry.count = 4 := by
      simp [FieldType.byteSize, hc]
    simp only [hsz, if_pos (by omega : (4 : Nat) ≤ 4)]
    cases e with
    | little =>
      simp only [parseValueFromBytes, u32ToLeBytes, List.take, hc]
      norm_num [List.getD, Endian.readU32, parseElems]
      omega
    | big =>
      simp only [parseValueFromBytes, u32ToBeBytes, u32ToLeBytes, List.reverse,
        List.take, hc]
      norm_num [List.getD, Endian.readU32, parseElems]
      omega
  · subst hl
    rw [parseTagValue.eq_def, hft]
    simp only [hc]
    norm_num [FieldType.byteSize]

/-- Witness for C2: a Long entry with count 1 and slot value 1920 decodes
inline to 1920; with count 2 the slot is dereferenced as an offset. -/
theorem c2_witness :
    parseTagValue [] ⟨256, 4, 1, 1920⟩ .little = .ok (.longs [1920]) ∧
    parseTagValue [0, 0, 0, 0, 1, 0, 0, 0, 2, 0, 0, 0] ⟨256, 4, 2, 4⟩ .little =
      .ok (.longs [1, 2]) := by
  have h1 := (c2_inline_offset_policy [] ⟨256, 4, 1, 1920⟩ .little .long rfl).2.2.1
    rfl rfl (by norm_num)
  have h2 := (c2_inline_offset_policy [0, 0, 0, 0, 1, 0, 0, 0, 2, 0, 0, 0]
    ⟨256, 4, 2, 4⟩ .little .long rfl).2.2.2 rfl rfl
  refine ⟨h1, ?_⟩
  rw [h2]
  rfl

/-- A successful bounds-checked read returns exactly the requested number
of bytes. -/
lemma readBytesAt_ok_length {data v : List Nat} {off n : Nat}
    (h : readBytesAt data off n = .ok v) : v.length = n := by
  rw [readBytesAt] at h
  split at h
  · exact absurd h (by simp)
  · rename_i hle
    have : n ≤ data.length - off := by omega
    simp only [Except.ok.injEq] at h
    subst h
    simp [List.length_take, List.length_drop]
    omega

/-- The element loop collects exactly its iteration count when the buffer
holds at least `(i + n) * sz` bytes. -/
lemma parseElems_length {α : Type} (dataLen sz : Nat) (f : Nat → α) :
    ∀ n i, (i + n) * sz ≤ dataLen → (parseElems dataLen sz f i n).length = n := by
  intro n
  induction n with
  | zero => intro i _; rfl
  | succ m ih =>
    intro i hle
    rw [parseElems, if_neg (by nlinarith)]
    simp only [List.length_cons]
    rw [ih (i + 1) (by nlinarith)]

/-- Decoded element counts of `parse_value_from_bytes` when the payload
holds exactly `byte_size * count` bytes: every non-Ascii type yields
exactly `count` elements; Ascii yields the payload minus at most one
stripped trailing null. -/
lemma parseValueFromBytes_elem_count (data : List Nat) (ft : FieldType) (count : Nat)
    (e : Endian) (v : TagValue)
    (hlen : data.length = ft.byteSize * count)
    (hok : parseValueFromBytes data ft count e = .ok v) :
    (ft ≠ .ascii → tagValueElemCount v = count) ∧
    (ft = .ascii → ∃ s, v = .ascii s ∧
      (s.length = count ∨ s.length + 1 = count)) := by
  cases ft with
  | ascii =>
    refine ⟨fun h => absurd rfl h, fun _ => ?_⟩
    rw [parseValueFromBytes] at hok
    split at hok
    · rename_i hvalid
      simp only [Except.ok.injEq] at hok
      refine ⟨stripTrailingNull data, hok.symm, ?_⟩
      simp only [FieldType.byteSize, one_mul] at hlen
      rw [stripTrailingNull]
      rcases hl : data.getLast? with _ | b
      · left
        simpa using hlen
      · rcases b with _ | b
        · right
          have hne : data ≠ [] := by
            intro h0
            rw [h0] at hl
            exact absurd hl (by simp)
          have : 0 < data.length := List.length_pos.mpr hne
          simp [List.length_dropLast]
          omega
        · left
          simpa using hlen
    · exact absurd hok (by simp)
  | byte =>
    refine ⟨fun _ => ?_, fun h => absurd h (by simp)⟩
    rw [parseValueFromBytes] at hok
    simp only [Except.ok.injEq] at hok
    subst hok
    simp only [tagValueElemCount, FieldType.byteSize, one_mul] at hlen ⊢
    exact hlen
  | sbyte =>
    refine ⟨fun _ => ?_, fun h => absurd h (by simp)⟩
    rw [parseValueFromBytes] at hok
    simp only [Except.ok.injEq] at hok
    subst hok
    simp only [tagValueElemCount, List.length_map, FieldType.byteSize, one_mul] at hlen ⊢
    exact hlen
  | undefined =>
    refine ⟨fun _ => ?_, fun h => absurd h (by simp)⟩
    rw [parseValueFromBytes] at hok
    simp only [Except.ok.injEq] at hok
    subst hok
    simp only [tagValueElemCount, FieldType.byteSize, one_mul] at hlen ⊢
    exact hlen
  | short =>
    refine ⟨fun _ => ?_, fun h => absurd h (by simp)⟩
    rw [parseValueFromBytes] at hok
    simp only [Except.ok.injEq] at hok
    subst hok
    simp only [FieldType.byteSize] at hlen
    exact parseElems_length data.length 2 _ count 0 (by omega)
  | sshort =>
    refine ⟨fun _ => ?_, fun h => absurd h (by simp)⟩
    rw [parseValueFromBytes] at hok
    simp only [Except.ok.injEq] at hok
    subst hok
    simp only [FieldType.byteSize] at hlen
    exact parseElems_length data.length 2 _ count 0 (by omega)
  | long =>
    refine ⟨fun _ => ?_, fun h => absurd h (by simp)⟩
    rw [parseValueFromBytes] at hok
    simp only [Except.ok.injEq] at hok
    subst hok
    simp only [FieldType.byteSize] at hlen
    exact parseElems_length data.length 4 _ count 0 (by omega)
  | slong =>
    refine ⟨fun _ => ?_, fun h => absurd h (by simp)⟩
    rw [parseValueFromBytes] at hok
    simp only [Except.ok.injEq] at hok
    subst hok
    simp only [FieldType.byteSize] at hlen
    exact parseElems_length data.length 4 _ count 0 (by omega)
  | float =>
    refine ⟨fun _ => ?_, fun h => absurd h (by simp)⟩
    rw [parseValueFromBytes] at hok
    simp only [Except.ok.injEq] at hok
    subst hok
    simp only [FieldType.byteSize] at hlen
    exact parseElems_length data.length 4 _ count 0 (by omega)
  | rational =>
    refine ⟨fun _ => ?_, fun h => absurd h (by simp)⟩
    rw [parseValueFromBytes] at hok
    simp only [Except.ok.injEq] at hok
    subst hok
    simp only [FieldType.byteSize] at hlen
    exact parseElems_length data.length 8 _ count 0 (by omega)
  | srational =>
    refine ⟨fun _ => ?_, fun h => absurd h (by simp)⟩
    rw [parseValueFromBytes] at hok
    simp only [Except.ok.injEq] at hok
    subst hok
    simp only [FieldType.byteSize] at hlen
    exact parseElems_length data.length 8 _ count 0 (by omega)
  | double =>
    refine ⟨fun _ => ?_, fun h => absurd h (by simp)⟩
    rw [parseValueFromBytes] at hok
    simp only [Except.ok.injEq] at hok
    subst hok
    simp only [FieldType.byteSize] at hlen
    exact parseElems_length data.length 8 _ count 0 (by omega)

/-- C3 counterexample: an Ascii entry with `value_count = 2` whose inline
payload is "A\0" decodes successfully, but the resulting string holds 1
character, not 2 — the trailing null is stripped. -/
theorem c3_counterexample :
    parseTagValue [] ⟨270, 2, 2, 65⟩ .little = .ok (.ascii [65]) ∧
    tagValueElemCount (.ascii [65]) = 1 ∧ (1 : Nat) ≠ 2 := by
  refine ⟨rfl, rfl, by omega⟩

/-- C3 (amended): for every successfully decoded entry, the number of
decoded elements equals the entry's `value_count` for every non-Ascii
field type (rationals counting as pairs, floats and doubles as scalars);
for Ascii the decoded string holds `value_count` bytes, or
`value_count - 1` when a trailing null byte was present and stripped. -/
theorem c3_elem_count_amended (data : List Nat) (entry : IfdEntry) (e : Endian)
    (v : TagValue) (hok : parseTagValue data entry e = .ok v) :
    (∀ ft, FieldType.fromU16 entry.fieldType = .ok ft → ft ≠ .ascii →
      tagValueElemCount v = entry.count) ∧
    (FieldType.fromU16 entry.fieldType = .ok .ascii →
      ∃ s, v = .ascii s ∧
        (s.length = entry.count ∨ s.length + 1 = entry.count)) := by
  rw [parseTagValue.eq_def] at hok
  rcases hf : FieldType.fromU16 entry.fieldType with err | ft
  · rw [hf] at hok
    exact absurd hok (by simp)
  rw [hf] at hok
  simp only at hok
  have key : (ft ≠ .ascii → tagValueElemCount v = entry.count) ∧
      (ft = .ascii → ∃ s, v = .ascii s ∧
        (s.length = entry.count ∨ s.length + 1 = entry.count)) := by
    split at hok
    · rename_i hin
      refine parseValueFromBytes_elem_count _ ft entry.count e v ?_ hok
      have hb : (match e with
          | Endian.little => u32ToLeBytes entry.valueOffset
          | Endian.big => u32ToBeBytes entry.valueOffset).length = 4 := by
        cases e <;> simp [u32ToLeBytes, u32ToBeBytes]
      rw [List.length_take, hb]
      omega
    · split at hok
      · exact absurd hok (by simp)
      · rename_i payload hread
        exact parseValueFromBytes_elem_count _ ft entry.count e v
          (readBytesAt_ok_length hread) hok
  refine ⟨fun ft' hft' hne => ?_, fun hascii => ?_⟩
  · have hee : ft = ft' := by simpa using hft'
    exact key.1 (hee ▸ hne)
  · have hee : ft = .ascii := by simpa using hascii
    exact key.2 hee

/-- Witness for C3 (amended): a Long entry with count 1 decodes to exactly
one element. -/
theorem c3_witness :
    tagValueElemCount (.longs [1920]) = (1 : Nat) := by
  have h := c3_elem_count_amended [] ⟨256, 4, 1, 1920⟩ .little (.longs [1920]) rfl
  exact h.1 .long rfl (by simp)

/-- C10 counterexample: `read_header` on 8 bytes with an invalid order
marker fails, but the cursor has moved from 0 to 8 — a failing operation
that does not leave the position unchanged. -/
theorem c10_counterexample :
    (readHeader ⟨[88, 88, 0, 0, 0, 0, 0, 0], 0⟩).1 =
      .error (.invalidByteOrder [88, 88]) ∧
    (readHeader ⟨[88, 88, 0, 0, 0, 0, 0, 0], 0⟩).2.pos = 8 ∧ (8 : Nat) ≠ 0 := by
  refine ⟨rfl, rfl, by omega⟩

/-- C10 (amended): the cursor invariant `position ≤ length` is preserved by
every operation; `seek`, `skip` and the primitive reads leave the position
unchanged on failure; seeking exactly to the length succeeds while seeking
past it fails with `OutOfBounds`; `read_header` is atomic only when reading
the 8 header bytes fails — when the bytes are read but header validation
fails, the cursor has advanced by 8. -/
theorem c10_cursor_invariant (r : Reader) (p count : Nat) (e : Endian)
    (hinv : r.pos ≤ r.data.length) :
    ((seek r p).2.pos ≤ r.data.length ∧ (seek r p).2.data = r.data) ∧
    ((skip r count).2.pos ≤ r.data.length ∧ (skip r count).2.data = r.data) ∧
    ((readU8 r).2.pos ≤ r.data.length ∧ (readU8 r).2.data = r.data) ∧
    ((readU16 r e).2.pos ≤ r.data.length ∧ (readU16 r e).2.data = r.data) ∧
    ((readU32 r e).2.pos ≤ r.data.length ∧ (readU32 r e).2.data = r.data) ∧
    ((readBytes r count).2.pos ≤ r.data.length ∧ (readBytes r count).2.data = r.data) ∧
    ((readHeader r).2.pos ≤ r.data.length ∧ (readHeader r).2.data = r.data) ∧
    (∀ err, (seek r p).1 = .error err → (seek r p).2 = r) ∧
    (∀ err, (skip r count).1 = .error err → (skip r count).2 = r) ∧
    (∀ err, (readU8 r).1 = .error err → (readU8 r).2 = r) ∧
    (∀ err, (readU16 r e).1 = .error err → (readU16 r e).2 = r) ∧
    (∀ err, (readU32 r e).1 = .error err → (readU32 r e).2 = r) ∧
    (∀ err, (readBytes r count).1 = .error err → (readBytes r count).2 = r) ∧
    (seek r r.data.length).1 = .ok () ∧
    (∀ k, (seek r (r.data.length + k + 1)).1 =
      .error (.outOfBounds (r.data.length + k + 1) r.data.length)) ∧
    (∀ err, (readHeader r).1 = .error err →
      (readHeader r).2 = r ∨ (readHeader r).2 = { r with pos := r.pos + 8 }) := by
  have hseek : ∀ q, ((seek r q).2.pos ≤ r.data.length ∧ (seek r q).2.data = r.data) := by
    intro q
    rw [seek]
    split
    · exact ⟨hinv, by trivial⟩
    · rename_i hq
      exact ⟨by show q ≤ r.data.length; omega, by trivial⟩
  have hseekerr : ∀ q err, (seek r q).1 = .error err → (seek r q).2 = r := by
    intro q err h
    rw [seek] at h ⊢
    split at h
    · rename_i hq
      rw [if_pos hq]
    · exact absurd h (by simp)
  have hu8 : (readU8 r).2.pos ≤ r.data.length ∧ (readU8 r).2.data = r.data := by
    rw [readU8]
    rcases hb : readU8At r.data r.pos with err | v <;> simp only [hb]
    · exact ⟨hinv, by trivial⟩
    · rw [readU8At] at hb
      split at hb
      · exact absurd hb (by simp)
      · rename_i hq
        exact ⟨by show r.pos + 1 ≤ r.data.length; omega, by trivial⟩
  have hu16 : (readU16 r e).2.pos ≤ r.data.length ∧ (readU16 r e).2.data = r.data := by
    rw [readU16]
    rcases hb : readU16At r.data r.pos e with err | v <;> simp only [hb]
    · exact ⟨hinv, by trivial⟩
    · rw [readU16At] at hb
      split at hb
      · exact absurd hb (by simp)
      · rename_i hq
        exact ⟨by show r.pos + 2 ≤ r.data.length; omega, by trivial⟩
  have hu32 : (readU32 r e).2.pos ≤ r.data.length ∧ (readU32 r e).2.data = r.data := by
    rw [readU32]
    rcases hb : readU32At r.data r.pos e with err | v <;> simp only [hb]
    · exact ⟨hinv, by trivial⟩
    · rw [readU32At] at hb
      split at hb
      · exact absurd hb (by simp)
      · rename_i hq
        exact ⟨by show r.pos + 4 ≤ r.data.length; omega, by trivial⟩
  have hrb : ∀ n, ((readBytes r n).2.pos ≤ r.data.length ∧ (readBytes r n).2.data = r.data) := by
    intro n
    rw [readBytes]
    rcases hb : readBytesAt r.data r.pos n with err | v <;> simp only [hb]
    · exact ⟨hinv, by trivial⟩
    · rw [readBytesAt] at hb
      split at hb
      · exact absurd hb (by simp)
      · rename_i hq
        exact ⟨by show r.pos + n ≤ r.data.length; omega, by trivial⟩
  have hrberr : ∀ n err, (readBytes r n).1 = .error err → (readBytes r n).2 = r := by
    intro n err h
    rw [readBytes] at h ⊢
    rcases hb : readBytesAt r.data r.pos n with e2 | v <;> simp only [hb] at h ⊢
    exact absurd h (by simp)
  have hhead : (readHeader r).2.pos ≤ r.data.length ∧ (readHeader r).2.data = r.data := by
    have h8 := hrb 8
    rw [readHeader]
    rcases hb : readBytes r 8 with ⟨res, r'⟩
    rw [hb] at h8
    rcases res with err | bytes <;> simp only
    · exact h8
    · rcases hp : TiffHeader.parse bytes with err | hh <;> simp only [hp] <;> exact h8
  refine ⟨hseek p, hseek (r.pos + count), hu8, hu16, hu32, hrb count, hhead,
    hseekerr p, hseekerr (r.pos + count), ?_, ?_, ?_, hrberr count, ?_, ?_, ?_⟩
  · intro err h
    rw [readU8] at h ⊢
    rcases hb : readU8At r.data r.pos with e2 | v <;> simp only [hb] at h ⊢
    exact absurd h (by simp)
  · intro err h
    rw [readU16] at h ⊢
    rcases hb : readU16At r.data r.pos e with e2 | v <;> simp only [hb] at h ⊢
    exact absurd h (by simp)
  · intro err h
    rw [readU32] at h ⊢
    rcases hb : readU32At r.data r.pos e with e2 | v <;> simp only [hb] at h ⊢
    exact absurd h (by simp)
  · rw [seek, if_neg (by omega)]
  · intro k
    rw [seek, if_pos (by omega)]
  · intro err h
    rw [readHeader] at h ⊢
    rcases hb : readBytes r 8 with ⟨res, r'⟩
    rcases res with err2 | bytes
    · left
      have h2 := hrberr 8 err2
      rw [hb] at h2
      exact h2 rfl
    · right
      have hr2 : r' = { r with pos := r.pos + 8 } := by
        rw [readBytes] at hb
        rcases hb2 : readBytesAt r.data r.pos 8 with e2 | v <;>
          simp only [hb2, Prod.mk.injEq] at hb
        · exact absurd hb.1 (by simp)
        · exact hb.2.symm
      rcases hp : TiffHeader.parse bytes with err3 | hh
      · simpa [hp] using hr2
      · rw [hb] at h
        simp [hp] at h

/-- Witness for C10 (amended): on a 3-byte source, seeking to the length
succeeds. -/
theorem c10_witness :
    (seek (Reader.mk [1, 2, 3] 0) 3).1 = .ok () := by
  have h := c10_cursor_invariant (Reader.mk [1, 2, 3] 0) 1 1 .little (by simp)
  exact h.2.2.2.2.2.2.2.2.2.2.2.2.2.1


lemma readBytesAt_error_oob {data : List Nat} {off n : Nat} {err : TiffError}
    (h : readBytesAt data off n = .error err) :
    err = .outOfBounds (off + n) data.length := by
  rw [readBytesAt] at h
  split at h
  · simpa using h.symm
  · exact absurd h (by simp)

lemma readU16At_error_oob {data : List Nat} {off : Nat} {e : Endian} {err : TiffError}
    (h : readU16At data off e = .error err) :
    err = .outOfBounds (off + 2) data.length := by
  rw [readU16At] at h
  split at h
  · simpa using h.symm
  · exact absurd h (by simp)

lemma readU32At_error_oob {data : List Nat} {off : Nat} {e : Endian} {err : TiffError}
    (h : readU32At data off e = .error err) :
    err = .outOfBounds (off + 4) data.length := by
  rw [readU32At] at h
  split at h
  · simpa using h.symm
  · exact absurd h (by simp)

lemma seek_fst_error_oob {r : Reader} {p : Nat} {err : TiffError}
    (h : (seek r p).1 = .error err) : err = .outOfBounds p r.data.length := by
  rw [seek] at h
  split at h
  · simpa using h.symm
  · exact absurd h (by simp)

lemma readU16_fst_error_oob {r : Reader} {e : Endian} {err : TiffError}
    (h : (readU16 r e).1 = .error err) :
    err = .outOfBounds (r.pos + 2) r.data.length := by
  rw [readU16] at h
  split at h
  · rename_i err1 heq
    simp at h
    subst h
    exact readU16At_error_oob heq
  · exact absurd h (by simp)

lemma readU32_fst_error_oob {r : Reader} {e : Endian} {err : TiffError}
    (h : (readU32 r e).1 = .error err) :
    err = .outOfBounds (r.pos + 4) r.data.length := by
  rw [readU32] at h
  split at h
  · rename_i err1 heq
    simp at h
    subst h
    exact readU32At_error_oob heq
  · exact absurd h (by simp)

lemma readIfdEntry_fst_error_oob {r : Reader} {e : Endian} {err : TiffError}
    (h : (readIfdEntry r e).1 = .error err) :
    ∃ i m, err = .outOfBounds i m := by
  rw [readIfdEntry] at h
  split at h
  · rename_i err1 r1 heq
    simp at h
    subst h
    exact ⟨_, _, readU16_fst_error_oob (by rw [heq])⟩
  · split at h
    · rename_i err1 r1 heq
      simp at h
      subst h
      exact ⟨_, _, readU16_fst_error_oob (by rw [heq])⟩
    · split at h
      · rename_i err1 r1 heq
        simp at h
        subst h
        exact ⟨_, _, readU32_fst_error_oob (by rw [heq])⟩
      · split at h
        · rename_i err1 r1 heq
          simp at h
          subst h
          exact ⟨_, _, readU32_fst_error_oob (by rw [heq])⟩
        · exact absurd h (by simp)

lemma readIfdEntries_fst_error_oob {e : Endian} {err : TiffError} :
    ∀ (n : Nat) (r : Reader), (readIfdEntries e n r).1 = .error err →
      ∃ i m, err = .outOfBounds i m := by
  intro n
  induction n with
  | zero =>
    intro r h
    exact absurd h (by simp [readIfdEntries])
  | succ m ih =>
    intro r h
    rw [readIfdEntries] at h
    split at h
    · rename_i err1 r1 heq
      simp at h
      subst h
      exact readIfdEntry_fst_error_oob (by rw [heq])
    · split at h
      · rename_i err1 r1 heq
        simp at h
        subst h
        exact ih _ (by rw [heq])
      · exact absurd h (by simp)

/-- C4 (amended): a read failure while `read_ifd` is parsing the entry
count, an entry, or the next-directory offset propagates as the raw
underlying `ByteSource` error — an `OutOfBounds` value with no added
operation context (the error type carries none for bounds failures). -/
theorem c4_read_ifd_error_amended (r : Reader) (offset : Nat) (e : Endian)
    (err : TiffError) (h : (readIfd r offset e).1 = .error err) :
    ∃ i m, err = .outOfBounds i m := by
  rw [readIfd] at h
  split at h
  · rename_i err1 r1 heq
    simp at h
    subst h
    exact ⟨_, _, seek_fst_error_oob (by rw [heq])⟩
  · split at h
    · rename_i err1 r1 heq
      simp at h
      subst h
      exact ⟨_, _, readU16_fst_error_oob (by rw [heq])⟩
    · split at h
      · rename_i err1 r1 heq
        simp at h
        subst h
        exact readIfdEntries_fst_error_oob _ _ (by rw [heq])
      · split at h
        · rename_i err1 r1 heq
          simp at h
          subst h
          exact ⟨_, _, readU32_fst_error_oob (by rw [heq])⟩
        · exact absurd h (by simp)

/-- C4 counterexample: on a 9-byte input, reading the entry count of an IFD
at offset 8 fails, and `read_ifd` returns exactly the raw source error
`OutOfBounds(10, 9)` — identical to what the source read itself returns,
with no wrapping context identifying the operation. -/
theorem c4_counterexample :
    (readIfd ⟨[73, 73, 42, 0, 8, 0, 0, 0, 0], 0⟩ 8 .little).1 =
      .error (.outOfBounds 10 9) ∧
    readU16At [73, 73, 42, 0, 8, 0, 0, 0, 0] 8 .little =
      .error (.outOfBounds 10 9) :=
  ⟨rfl, rfl⟩

/-- Witness for C4 (amended) at the 9-byte truncated input. -/
theorem c4_witness :
    ∃ i m, (TiffError.outOfBounds 10 9) = TiffError.outOfBounds i m :=
  c4_read_ifd_error_amended ⟨[73, 73, 42, 0, 8, 0, 0, 0, 0], 0⟩ 8 .little
    (.outOfBounds 10 9) rfl


/-- A pathological file whose single directory's next-offset points back at
itself: a little-endian header with first-directory offset 8, followed at
offset 8 by a directory with zero entries whose 4-byte next-offset is 8. -/
def cyclicTiff : List Nat :=
  [73, 73, 42, 0, 8, 0, 0, 0, 0, 0, 8, 0, 0, 0]

lemma readIfd_cyclicTiff (p : Nat) :
    readIfd ⟨cyclicTiff, p⟩ 8 .little =
      (.ok ⟨[], 8⟩, ⟨cyclicTiff, 14⟩) := rfl

lemma walkIfds_cyclicTiff : ∀ (fuel : Nat) (p : Nat),
    walkIfds .little fuel 8 ⟨cyclicTiff, p⟩ = none := by
  intro fuel
  induction fuel with
  | zero =>
    intro p
    rw [walkIfds]
    simp
  | succ n ih =>
    intro p
    rw [walkIfds]
    rw [if_neg (by omega)]
    rw [readIfd_cyclicTiff p]
    simp only
    rw [ih 14]

/-- C1: the directory chain walk of `TiffFile::from_reader` does NOT
terminate on a file whose directory chain forms a cycle — the
implementation has no maximum directory count and no visited-offset set,
so on `cyclicTiff` the loop never produces any result (in particular it
never fails with `MalformedFile`): for every iteration bound the fuel runs
out. -/
theorem c1_cycle_walk_diverges (fuel : Nat) :
    fromBytesFuel fuel cyclicTiff = none := by
  have hh : readHeader (Reader.new cyclicTiff) =
      (.ok ⟨.little, 42, 8⟩, ⟨cyclicTiff, 8⟩) := rfl
  rw [fromBytesFuel, fromReaderFuel, hh]
  simp only
  rw [walkIfds_cyclicTiff fuel 8]


/-! Extension lemmas: a successful read against a byte buffer gives the
same result against any extension of that buffer (the buffer is a prefix
of the larger one), and reader operations transfer accordingly.  These
support the truncated-input analysis. -/

lemma getD_extend {p t : List Nat} {j : Nat} (h : j < p.length) :
    (p ++ t).getD j 0 = p.getD j 0 :=
  List.getD_append p t 0 j h

lemma readBytesAt_extend {p t v : List Nat} {off n : Nat}
    (h : readBytesAt p off n = .ok v) :
    readBytesAt (p ++ t) off n = .ok v := by
  rw [readBytesAt] at h ⊢
  split at h
  · exact absurd h (by simp)
  · rename_i hle
    rw [if_neg (by simp only [List.length_append]; omega)]
    simp only [Except.ok.injEq] at h ⊢
    rw [List.drop_append_of_le_length (by omega),
      List.take_append_of_le_length (by simp only [List.length_drop]; omega)]
    exact h

lemma readU16At_extend {p t : List Nat} {off : Nat} {e : Endian} {v : Nat}
    (h : readU16At p off e = .ok v) :
    readU16At (p ++ t) off e = .ok v := by
  rw [readU16At] at h ⊢
  split at h
  · exact absurd h (by simp)
  · rename_i hle
    rw [if_neg (by simp only [List.length_append]; omega)]
    rw [getD_extend (by omega), getD_extend (by omega)]
    exact h

lemma readU32At_extend {p t : List Nat} {off : Nat} {e : Endian} {v : Nat}
    (h : readU32At p off e = .ok v) :
    readU32At (p ++ t) off e = .ok v := by
  rw [readU32At] at h ⊢
  split at h
  · exact absurd h (by simp)
  · rename_i hle
    rw [if_neg (by simp only [List.length_append]; omega)]
    rw [getD_extend (by omega), getD_extend (by omega), getD_extend (by omega),
      getD_extend (by omega)]
    exact h

lemma seek_extend {p t : List Nat} {pos q : Nat} {u : Unit}
    (h : (seek ⟨p, pos⟩ q).1 = .ok u) :
    seek ⟨p, pos⟩ q = (.ok (), ⟨p, q⟩) ∧
    seek ⟨p ++ t, pos⟩ q = (.ok (), ⟨p ++ t, q⟩) := by
  rw [seek] at h
  split at h
  · exact absurd h (by simp)
  · rename_i hq
    constructor
    · rw [seek, if_neg hq]
    · rw [seek, if_neg (by simp only [List.length_append] at hq ⊢; omega)]

lemma readU16_extend {p t : List Nat} {pos : Nat} {e : Endian} {v : Nat}
    (h : (readU16 ⟨p, pos⟩ e).1 = .ok v) :
    readU16 ⟨p, pos⟩ e = (.ok v, ⟨p, pos + 2⟩) ∧
    readU16 ⟨p ++ t, pos⟩ e = (.ok v, ⟨p ++ t, pos + 2⟩) := by
  rw [readU16] at h
  split at h
  · exact absurd h (by simp)
  · rename_i v1 heq
    simp only [Except.ok.injEq] at h
    subst h
    constructor
    · rw [readU16, heq]
    · rw [readU16]
      rw [show readU16At (p ++ t) pos e = .ok v1 from readU16At_extend heq]

lemma readU32_extend {p t : List Nat} {pos : Nat} {e : Endian} {v : Nat}
    (h : (readU32 ⟨p, pos⟩ e).1 = .ok v) :
    readU32 ⟨p, pos⟩ e = (.ok v, ⟨p, pos + 4⟩) ∧
    readU32 ⟨p ++ t, pos⟩ e = (.ok v, ⟨p ++ t, pos + 4⟩) := by
  rw [readU32] at h
  split at h
  · exact absurd h (by simp)
  · rename_i v1 heq
    simp only [Except.ok.injEq] at h
    subst h
    constructor
    · rw [readU32, heq]
    · rw [readU32]
      rw [show readU32At (p ++ t) pos e = .ok v1 from readU32At_extend heq]

lemma readBytes_extend {p t : List Nat} {pos n : Nat} {v : List Nat}
    (h : (readBytes ⟨p, pos⟩ n).1 = .ok v) :
    readBytes ⟨p, pos⟩ n = (.ok v, ⟨p, pos + n⟩) ∧
    readBytes ⟨p ++ t, pos⟩ n = (.ok v, ⟨p ++ t, pos + n⟩) := by
  rw [readBytes] at h
  split at h
  · exact absurd h (by simp)
  · rename_i v1 heq
    simp only [Except.ok.injEq] at h
    subst h
    constructor
    · rw [readBytes, heq]
    · rw [readBytes]
      rw [show readBytesAt (p ++ t) pos n = .ok v1 from readBytesAt_extend heq]


lemma readBytes_fst_error_oob {r : Reader} {n : Nat} {err : TiffError}
    (h : (readBytes r n).1 = .error err) :
    err = .outOfBounds (r.pos + n) r.data.length := by
  rw [readBytes] at h
  split at h
  · rename_i err1 heq
    simp only [Except.error.injEq] at h
    subst h
    exact readBytesAt_error_oob heq
  · exact absurd h (by simp)

lemma readIfd_fst_error_oob {r : Reader} {offset : Nat} {e : Endian} {err : TiffError}
    (h : (readIfd r offset e).1 = .error err) :
    ∃ i m, err = .outOfBounds i m := by
  rw [readIfd] at h
  split at h
  · rename_i err1 r1 heq
    simp only [Except.error.injEq] at h
    subst h
    exact ⟨_, _, seek_fst_error_oob (by rw [heq])⟩
  · split at h
    · rename_i err1 r1 heq
      simp only [Except.error.injEq] at h
      subst h
      exact ⟨_, _, readU16_fst_error_oob (by rw [heq])⟩
    · split at h
      · rename_i err1 r1 heq
        simp only [Except.error.injEq] at h
        subst h
        exact readIfdEntries_fst_error_oob _ _ (by rw [heq])
      · split at h
        · rename_i err1 r1 heq
          simp only [Except.error.injEq] at h
          subst h
          exact ⟨_, _, readU32_fst_error_oob (by rw [heq])⟩
        · exact absurd h (by simp)

lemma readIfdEntry_extend {p t : List Nat} {pos : Nat} {e : Endian} {entry : IfdEntry}
    (h : (readIfdEntry ⟨p, pos⟩ e).1 = .ok entry) :
    ∃ pos', readIfdEntry ⟨p, pos⟩ e = (.ok entry, ⟨p, pos'⟩) ∧
      readIfdEntry ⟨p ++ t, pos⟩ e = (.ok entry, ⟨p ++ t, pos'⟩) := by
  rw [readIfdEntry] at h
  split at h
  · exact absurd h (by simp)
  · rename_i tag r1 heq1
    split at h
    · exact absurd h (by simp)
    · rename_i ft r2 heq2
      split at h
      · exact absurd h (by simp)
      · rename_i count r3 heq3
        split at h
        · exact absurd h (by simp)
        · rename_i vo r4 heq4
          simp only [Except.ok.injEq] at h
          subst h
          have e1 := readU16_extend (t := t)
            (show (readU16 ⟨p, pos⟩ e).1 = .ok tag by rw [heq1])
          have hr1 : r1 = ⟨p, pos + 2⟩ := by
            have h12 := heq1.symm.trans e1.1
            simpa using (Prod.mk.injEq _ _ _ _ ▸ h12).2
          subst hr1
          have e2 := readU16_extend (t := t)
            (show (readU16 ⟨p, pos + 2⟩ e).1 = .ok ft by rw [heq2])
          have hr2 : r2 = ⟨p, pos + 2 + 2⟩ := by
            have h12 := heq2.symm.trans e2.1
            simpa using (Prod.mk.injEq _ _ _ _ ▸ h12).2
          subst hr2
          have e3 := readU32_extend (t := t)
            (show (readU32 ⟨p, pos + 2 + 2⟩ e).1 = .ok count by rw [heq3])
          have hr3 : r3 = ⟨p, pos + 2 + 2 + 4⟩ := by
            have h12 := heq3.symm.trans e3.1
            simpa using (Prod.mk.injEq _ _ _ _ ▸ h12).2
          subst hr3
          have e4 := readU32_extend (t := t)
            (show (readU32 ⟨p, pos + 2 + 2 + 4⟩ e).1 = .ok vo by rw [heq4])
          have hr4 : r4 = ⟨p, pos + 2 + 2 + 4 + 4⟩ := by
            have h12 := heq4.symm.trans e4.1
            simpa using (Prod.mk.injEq _ _ _ _ ▸ h12).2
          subst hr4
          refine ⟨pos + 2 + 2 + 4 + 4, ?_, ?_⟩
          · rw [readIfdEntry]
            simp only [heq1, heq2, heq3, heq4]
          · rw [readIfdEntry]
            simp only [e1.2, e2.2, e3.2, e4.2]


lemma readIfdEntries_extend {p t : List Nat} {e : Endian} :
    ∀ (n : Nat) (pos : Nat) (entries : List IfdEntry),
      (readIfdEntries e n ⟨p, pos⟩).1 = .ok entries →
      ∃ pos', readIfdEntries e n ⟨p, pos⟩ = (.ok entries, ⟨p, pos'⟩) ∧
        readIfdEntries e n ⟨p ++ t, pos⟩ = (.ok entries, ⟨p ++ t, pos'⟩) := by
  intro n
  induction n with
  | zero =>
    intro pos entries h
    rw [readIfdEntries] at h
    simp only [Except.ok.injEq] at h
    subst h
    exact ⟨pos, rfl, rfl⟩
  | succ m ih =>
    intro pos entries h
    rw [readIfdEntries] at h
    split at h
    · exact absurd h (by simp)
    · rename_i entry r1 heq1
      split at h
      · exact absurd h (by simp)
      · rename_i rest r2 heq2
        simp only [Except.ok.injEq] at h
        subst h
        obtain ⟨pos1, hp1, hd1⟩ := readIfdEntry_extend (t := t)
          (show (readIfdEntry ⟨p, pos⟩ e).1 = .ok entry by rw [heq1])
        have hr1 : r1 = ⟨p, pos1⟩ := by
          have h12 := heq1.symm.trans hp1
          simpa using (Prod.mk.injEq _ _ _ _ ▸ h12).2
        subst hr1
        obtain ⟨pos2, hp2, hd2⟩ := ih pos1 rest (by rw [heq2])
        have hr2 : r2 = ⟨p, pos2⟩ := by
          have h12 := heq2.symm.trans hp2
          simpa using (Prod.mk.injEq _ _ _ _ ▸ h12).2
        subst hr2
        refine ⟨pos2, ?_, ?_⟩
        · rw [readIfdEntries]
          simp only [heq1, heq2]
        · rw [readIfdEntries]
          simp only [hd1, hd2]

lemma readIfd_extend {p t : List Nat} {pos offset : Nat} {e : Endian}
    {ifd : ImageFileDirectory}
    (h : (readIfd ⟨p, pos⟩ offset e).1 = .ok ifd) :
    ∃ pos', readIfd ⟨p, pos⟩ offset e = (.ok ifd, ⟨p, pos'⟩) ∧
      readIfd ⟨p ++ t, pos⟩ offset e = (.ok ifd, ⟨p ++ t, pos'⟩) := by
  rw [readIfd] at h
  split at h
  · exact absurd h (by simp)
  · rename_i u r1 heq1
    split at h
    · exact absurd h (by simp)
    · rename_i numEntries r2 heq2
      split at h
      · exact absurd h (by simp)
      · rename_i entries r3 heq3
        split at h
        · exact absurd h (by simp)
        · rename_i nextOff r4 heq4
          simp only [Except.ok.injEq] at h
          subst h
          obtain ⟨hps, hds⟩ := seek_extend (t := t)
            (show (seek ⟨p, pos⟩ offset).1 = .ok u by rw [heq1])
          have hr1 : r1 = ⟨p, offset⟩ := by
            have h12 := heq1.symm.trans hps
            simpa using (Prod.mk.injEq _ _ _ _ ▸ h12).2
          subst hr1
          obtain ⟨hp2, hd2⟩ := readU16_extend (t := t)
            (show (readU16 ⟨p, offset⟩ e).1 = .ok numEntries by rw [heq2])
          have hr2 : r2 = ⟨p, offset + 2⟩ := by
            have h12 := heq2.symm.trans hp2
            simpa using (Prod.mk.injEq _ _ _ _ ▸ h12).2
          subst hr2
          obtain ⟨pos3, hp3, hd3⟩ := readIfdEntries_extend (t := t) numEntries (offset + 2)
            entries (by rw [heq3])
          have hr3 : r3 = ⟨p, pos3⟩ := by
            have h12 := heq3.symm.trans hp3
            simpa using (Prod.mk.injEq _ _ _ _ ▸ h12).2
          subst hr3
          obtain ⟨hp4, hd4⟩ := readU32_extend (t := t)
            (show (readU32 ⟨p, pos3⟩ e).1 = .ok nextOff by rw [heq4])
          have hr4 : r4 = ⟨p, pos3 + 4⟩ := by
            have h12 := heq4.symm.trans hp4
            simpa using (Prod.mk.injEq _ _ _ _ ▸ h12).2
          subst hr4
          refine ⟨pos3 + 4, ?_, ?_⟩
          · rw [readIfd]
            simp only [heq1, heq2, heq3, heq4]
          · rw [readIfd]
            simp only [hds, hd2, hd3, hd4]


lemma walkIfds_zero_offset {e : Endian} {fuel : Nat} {r : Reader} :
    walkIfds e fuel 0 r = some (.ok ([], r)) := by
  cases fuel <;> rw [walkIfds] <;> simp

lemma walkIfds_succ_error {e : Endian} {fuel offset : Nat} {r r1 : Reader}
    {err : TiffError} (hoff : offset ≠ 0)
    (hread : readIfd r offset e = (.error err, r1)) :
    walkIfds e (fuel + 1) offset r = some (.error err) := by
  rw [walkIfds, if_neg hoff, hread]

lemma walkIfds_succ_ok {e : Endian} {fuel offset : Nat} {r r' : Reader}
    {ifd : ImageFileDirectory} (hoff : offset ≠ 0)
    (hread : readIfd r offset e = (.ok ifd, r')) :
    walkIfds e (fuel + 1) offset r =
      match walkIfds e fuel ifd.nextIfdOffset r' with
      | none => none
      | some (.error err) => some (.error err)
      | some (.ok (rest, r'')) => some (.ok (ifd :: rest, r'')) := by
  rw [walkIfds, if_neg hoff, hread]

lemma walkIfds_extend {p t : List Nat} {e : Endian} :
    ∀ (fuel : Nat) (offset pos : Nat) (ifds : List ImageFileDirectory) (rd' : Reader),
      walkIfds e fuel offset ⟨p ++ t, pos⟩ = some (.ok (ifds, rd')) →
      (∃ pos', walkIfds e fuel offset ⟨p, pos⟩ = some (.ok (ifds, ⟨p, pos'⟩))) ∨
      (∃ err, walkIfds e fuel offset ⟨p, pos⟩ = some (.error err) ∧
        isTruncationError err = true) := by
  intro fuel
  induction fuel with
  | zero =>
    intro offset pos ifds rd' h
    rw [walkIfds] at h
    split at h
    · rename_i hoff
      simp only [Option.some.injEq, Except.ok.injEq, Prod.mk.injEq] at h
      left
      refine ⟨pos, ?_⟩
      subst hoff
      rw [walkIfds_zero_offset]
      simp [h.1]
    · exact absurd h (by simp)
  | succ m ih =>
    intro offset pos ifds rd' h
    by_cases hoff : offset = 0
    · subst hoff
      rw [walkIfds_zero_offset] at h
      simp only [Option.some.injEq, Except.ok.injEq, Prod.mk.injEq] at h
      left
      refine ⟨pos, ?_⟩
      rw [walkIfds_zero_offset]
      simp [h.1]
    · rcases hdfull : readIfd ⟨p ++ t, pos⟩ offset e with ⟨resd, rd1⟩
      rcases hpfst : (readIfd ⟨p, pos⟩ offset e).1 with errp | ifdp
      · -- the reads on the shorter buffer fail: a raw OutOfBounds error
        right
        obtain ⟨i, m2, hoob⟩ := readIfd_fst_error_oob hpfst
        rcases hpfull : readIfd ⟨p, pos⟩ offset e with ⟨resp, rp1⟩
        rw [hpfull] at hpfst
        rcases resp with e2 | ifdq
        · have he2 : e2 = errp := by simpa using hpfst
          subst he2
          exact ⟨e2, walkIfds_succ_error hoff hpfull, by rw [hoob]; rfl⟩
        · exact absurd hpfst (by simp)
      · -- the shorter buffer reads the same directory
        obtain ⟨pos1, hpp, hpd⟩ := readIfd_extend (t := t) hpfst
        rw [walkIfds_succ_ok hoff hpd] at h
        rcases hin : walkIfds e m ifdp.nextIfdOffset ⟨p ++ t, pos1⟩ with _ | res2
        · rw [hin] at h
          exact absurd h (by simp)
        · rw [hin] at h
          rcases res2 with err2 | pair2
          · exact absurd h (by simp)
          · rcases pair2 with ⟨rest, rd2⟩
            simp only [Option.some.injEq, Except.ok.injEq, Prod.mk.injEq] at h
            obtain ⟨hifds, hrd⟩ := h
            rcases ih ifdp.nextIfdOffset pos1 rest rd2 hin with ⟨pos2, hw⟩ | ⟨err, hw, htr⟩
            · left
              refine ⟨pos2, ?_⟩
              rw [walkIfds_succ_ok hoff hpp, hw, ← hifds]
            · right
              refine ⟨err, ?_, htr⟩
              rw [walkIfds_succ_ok hoff hpp, hw]


lemma readHeader_bytes_error {r r' : Reader} {err : TiffError}
    (hb : readBytes r 8 = (.error err, r')) :
    readHeader r = (.error err, r') := by
  rw [readHeader, hb]

lemma readHeader_bytes_ok {r r' : Reader} {bytes : List Nat}
    (hb : readBytes r 8 = (.ok bytes, r')) :
    readHeader r =
      match TiffHeader.parse bytes with
      | .error e => (.error e, r')
      | .ok h => (.ok h, r') := by
  rw [readHeader, hb]

lemma fromReaderFuel_header_error {fuel : Nat} {r rh : Reader} {err : TiffError}
    (hh : readHeader r = (.error err, rh)) :
    fromReaderFuel fuel r = some (.error err) := by
  rw [fromReaderFuel, hh]

lemma fromReaderFuel_header_ok {fuel : Nat} {r rh : Reader} {hdr : TiffHeader}
    (hh : readHeader r = (.ok hdr, rh)) :
    fromReaderFuel fuel r =
      match walkIfds hdr.endian fuel hdr.ifdOffset rh with
      | none => none
      | some (.error e) => some (.error e)
      | some (.ok (ifds, r2)) => some (.ok ⟨hdr, ifds, r2⟩) := by
  rw [fromReaderFuel, hh]

lemma parseTagValue_ft_error {data : List Nat} {entry : IfdEntry} {e : Endian}
    {ferr : TiffError} (hft : FieldType.fromU16 entry.fieldType = .error ferr) :
    parseTagValue data entry e = .error ferr := by
  rw [parseTagValue.eq_def, hft]

lemma parseTagValue_ft_ok {data : List Nat} {entry : IfdEntry} {e : Endian}
    {ft : FieldType} (hft : FieldType.fromU16 entry.fieldType = .ok ft) :
    parseTagValue data entry e =
      if ft.byteSize * entry.count ≤ 4 then
        parseValueFromBytes ((match e with
          | .little => u32ToLeBytes entry.valueOffset
          | .big => u32ToBeBytes entry.valueOffset).take
            (min (ft.byteSize * entry.count) 4)) ft entry.count e
      else
        match readBytesAt data entry.valueOffset (ft.byteSize * entry.count) with
        | .error err => .error err
        | .ok payload => parseValueFromBytes payload ft entry.count e := by
  rw [parseTagValue.eq_def, hft]

/-- C8: for every file `p ++ t` that opens successfully and every prefix
`p` of it, opening the prefix either succeeds or fails with an
`OutOfBounds` / `InsufficientData` error (never any other error, never
undefined behaviour — every code path is a total function of the supplied
buffer); likewise any entry whose tag value decodes against the full file
decodes identically against the prefix or fails with such an error. -/
theorem c8_truncated_input (p t : List Nat) :
    (∀ fuel f, fromBytesFuel fuel (p ++ t) = some (.ok f) →
      (∃ f', fromBytesFuel fuel p = some (.ok f')) ∨
      (∃ err, fromBytesFuel fuel p = some (.error err) ∧
        isTruncationError err = true)) ∧
    (∀ entry e v, parseTagValue (p ++ t) entry e = .ok v →
      parseTagValue p entry e = .ok v ∨
      (∃ err, parseTagValue p entry e = .error err ∧
        isTruncationError err = true)) := by
  constructor
  · intro fuel f h
    have hstart : fromBytesFuel fuel (p ++ t) = fromReaderFuel fuel ⟨p ++ t, 0⟩ := rfl
    rw [hstart] at h
    rcases hpb : (readBytes (⟨p, 0⟩ : Reader) 8).1 with errb | bytesp
    · right
      have hoob := readBytes_fst_error_oob hpb
      rcases hpbf : readBytes (⟨p, 0⟩ : Reader) 8 with ⟨resb, rb1⟩
      rw [hpbf] at hpb
      rcases resb with e2 | v2
      · have he : e2 = errb := by simpa using hpb
        subst he
        refine ⟨e2, ?_, by rw [hoob]; rfl⟩
        have hfp : fromBytesFuel fuel p = fromReaderFuel fuel ⟨p, 0⟩ := rfl
        rw [hfp, fromReaderFuel_header_error (readHeader_bytes_error hpbf)]
      · exact absurd hpb (by simp)
    · obtain ⟨hpbp, hpbd⟩ := readBytes_extend (t := t) hpb
      rcases hparse : TiffHeader.parse bytesp with perr | hdr
      · have hdrh : readHeader (⟨p ++ t, 0⟩ : Reader) = (.error perr, ⟨p ++ t, 0 + 8⟩) := by
          rw [readHeader_bytes_ok hpbd, hparse]
        rw [fromReaderFuel_header_error hdrh] at h
        exact absurd h (by simp)
      · have hdrh : readHeader (⟨p ++ t, 0⟩ : Reader) = (.ok hdr, ⟨p ++ t, 0 + 8⟩) := by
          rw [readHeader_bytes_ok hpbd, hparse]
        have hprh : readHeader (⟨p, 0⟩ : Reader) = (.ok hdr, ⟨p, 0 + 8⟩) := by
          rw [readHeader_bytes_ok hpbp, hparse]
        rw [fromReaderFuel_header_ok hdrh] at h
        rcases hw : walkIfds hdr.endian fuel hdr.ifdOffset ⟨p ++ t, 0 + 8⟩ with _ | resw
        · rw [hw] at h
          exact absurd h (by simp)
        · rw [hw] at h
          rcases resw with errw | ⟨ifds, rd2⟩
          · exact absurd h (by simp)
          · rcases walkIfds_extend fuel hdr.ifdOffset (0 + 8) ifds rd2 hw with
              ⟨pos2, hwp⟩ | ⟨err, hwp, htr⟩
            · left
              refine ⟨⟨hdr, ifds, ⟨p, pos2⟩⟩, ?_⟩
              have hfp : fromBytesFuel fuel p = fromReaderFuel fuel ⟨p, 0⟩ := rfl
              rw [hfp, fromReaderFuel_header_ok hprh, hwp]
            · right
              refine ⟨err, ?_, htr⟩
              have hfp : fromBytesFuel fuel p = fromReaderFuel fuel ⟨p, 0⟩ := rfl
              rw [hfp, fromReaderFuel_header_ok hprh, hwp]
  · intro entry e v h
    rcases hft : FieldType.fromU16 entry.fieldType with ferr | ft
    · rw [parseTagValue_ft_error hft] at h
      exact absurd h (by simp)
    · rw [parseTagValue_ft_ok hft] at h
      rw [parseTagValue_ft_ok hft]
      by_cases hin : ft.byteSize * entry.count ≤ 4
      · rw [if_pos hin] at h ⊢
        exact Or.inl h
      · rw [if_neg hin] at h ⊢
        rcases hpr : readBytesAt p entry.valueOffset (ft.byteSize * entry.count) with
          errp | payload
        · right
          have hoob := readBytesAt_error_oob hpr
          exact ⟨errp, rfl, by rw [hoob]; rfl⟩
        · left
          rw [readBytesAt_extend (t := t) hpr] at h
          exact h

/-- Witness for C8: the 9-byte prefix of a valid 14-byte single-directory
file fails to open with an `OutOfBounds` error (or opens), never anything
else. -/
theorem c8_witness :
    (∃ f', fromBytesFuel 1 [73, 73, 42, 0, 8, 0, 0, 0, 0] = some (.ok f')) ∨
    (∃ err, fromBytesFuel 1 [73, 73, 42, 0, 8, 0, 0, 0, 0] = some (.error err) ∧
      isTruncationError err = true) :=
  (c8_truncated_input [73, 73, 42, 0, 8, 0, 0, 0, 0] [0, 0, 0, 0, 0]).1 1
    ⟨⟨.little, 42, 8⟩, [⟨[], 0⟩], ⟨[73, 73, 42, 0, 8, 0, 0, 0, 0, 0, 0, 0, 0, 0], 14⟩⟩ rfl

end TiffCore
